import Mathlib

/-!
Shallow embedding of the numerical merge operators of
`src/sd_mecha/merge_methods/__init__.py`.

Tensors are modelled as flattened lists of exact rationals.  The handful of
irrational primitives that the source delegates to torch / numpy / math
(square root, trigonometric functions, real exponentiation, `exp`) are passed
in as explicit function parameters: every theorem below either never exercises
them or quantifies over them.  Python's `int(x)` (truncation toward zero),
`round(x)` (round half to even), float `x % m` and `math.fmod` are modelled
exactly on `ℚ`.  Random draws (`numpy.random`, `torch.bernoulli`) are modelled
by an abstract uniform stream `u : ℕ → ℚ` with `0 ≤ u m < 1`, consumed by the
exact distribution logic of the source (Bernoulli threshold test, inverse-CDF
choice).  The spherical interpolation operator `slerp` is modelled over the
reals with an explicit IEEE-style special-value type `FV` (finite / signed
infinity / NaN), since its fallback behaviour is about NaN propagation.
-/

namespace SdMecha

/-- `torch.sign`: `1`, `-1` or `0` according to the sign of `x`. -/
def qsign (x : ℚ) : ℚ := if 0 < x then 1 else if x < 0 then -1 else 0

/-- Python `int(x)` on a float: truncation toward zero. -/
def ratTrunc (q : ℚ) : ℤ := if 0 ≤ q then ⌊q⌋ else ⌈q⌉

/-- Python `round(x)` on a float: round to nearest, half to even. -/
def pyRound (q : ℚ) : ℤ :=
  if q - ⌊q⌋ < 1 / 2 then ⌊q⌋
  else if 1 / 2 < q - ⌊q⌋ then ⌊q⌋ + 1
  else if ⌊q⌋ % 2 = 0 then ⌊q⌋ else ⌊q⌋ + 1

/-- Python `x % m` on floats for a positive modulus `m` (sign of the result
follows the divisor). -/
def pyMod (x m : ℚ) : ℚ := x - m * ⌊x / m⌋

/-- `math.fmod(x, 1.0)`: remainder carrying the sign of `x`. -/
def pyFmod1 (x : ℚ) : ℚ := x - ratTrunc x

/-- `EPSILON = 1e-10` from the source module. -/
def EPSILON : ℚ := 1 / 10 ^ 10

/-- `numpy.isclose(a, b)` with the default tolerances
`atol = 1e-8`, `rtol = 1e-5`. -/
def npIsClose (a b : ℚ) : Prop := |a - b| ≤ 1 / 10 ^ 8 + |b| / 10 ^ 5

instance (a b : ℚ) : Decidable (npIsClose a b) := by
  unfold npIsClose; infer_instance

/-- `weighted_sum(a, b, alpha) = (1 - alpha) * a + alpha * b`, elementwise.
`K` is `ℚ` for the rational tensor model and `ℝ` for the slerp model; the
source also applies the very same function to numpy arrays inside
`overlapping_sets_pmf`. -/
def weighted_sum {K : Type} [CommRing K] (a b : List K) (alpha : K) : List K :=
  List.zipWith (fun x y => (1 - alpha) * x + alpha * y) a b

/-- `ratio_to_region(width, offset, n)`: maps a fractional width/offset pair
to an integer half-open index range plus an inversion flag. -/
def ratio_to_region (width offset : ℚ) (n : ℕ) : ℤ × ℤ × Bool :=
  let offset1 := if width < 0 then offset + width else offset
  let width1 := if width < 0 then -width else width
  let width2 := min width1 1
  let offset2 := if offset1 < 0 then 1 + offset1 - ratTrunc offset1 else offset1
  let offset3 := pyFmod1 offset2
  if width2 + offset3 ≤ 1 then
    (pyRound (offset3 * n), pyRound ((width2 + offset3) * n), false)
  else
    (pyRound ((width2 + offset3 - 1) * n), pyRound (offset3 * n), true)

/-- `filter_top_k(a, k)`: zero every element whose absolute value is below the
`max(int((1 - k) * numel), 1)`-th smallest absolute value (`torch.kthvalue`);
elements equal to the threshold are kept (`>=` comparison). -/
def filter_top_k (a : List ℚ) (k : ℚ) : List ℚ :=
  let kidx := (max (ratTrunc ((1 - k) * a.length)) 1).toNat
  let k_value := (List.insertionSort (· ≤ ·) (a.map (fun x => |x|))).getD (kidx - 1) 0
  a.map (fun x => x * (if k_value ≤ |x| then 1 else 0))

/-- The `max(int((1 - k) * numel), 1)` rank used by `filter_top_k`. -/
def topKIndex (len : ℕ) (k : ℚ) : ℕ := (max (ratTrunc ((1 - k) * len)) 1).toNat

/-- The `torch.kthvalue` threshold used by `filter_top_k`. -/
def topKValue (a : List ℚ) (k : ℚ) : ℚ :=
  (List.insertionSort (· ≤ ·) (a.map (fun x => |x|))).getD (topKIndex a.length k - 1) 0

/-- Number of nonzero elements of a tensor. -/
def keptCount (l : List ℚ) : ℕ := l.countP (fun x => decide (x ≠ 0))

/-- Column `j` of a stack of same-length rows (`dim=0` of the stacked tensor). -/
def tiesCol (deltas : List (List ℚ)) (j : ℕ) : List ℚ := deltas.map (fun d => d.getD j 0)

/-- The elected consensus sign at element `j`:
`sign(sum(deltas, dim=0))` by default, `sign(sum(sign(deltas), dim=0))`
when `vote_sgn > 0` ("TIES-SOUP"). -/
def final_sign (deltas : List (List ℚ)) (vote_sgn : ℚ) (j : ℕ) : ℚ :=
  qsign ((if vote_sgn ≤ 0 then tiesCol deltas j else (tiesCol deltas j).map qsign).sum)

/-- `ties_sum_deltas(*models, k, vote_sgn)`: trim every delta with
`filter_top_k`, elect a consensus sign per element, zero the entries whose
sign disagrees with it, and return the per-model filtered deltas together
with the per-element count of agreeing models. -/
def ties_sum_deltas (models : List (List ℚ)) (k vote_sgn : ℚ) :
    List (List ℚ) × List ℚ :=
  let deltas := models.map (fun m => filter_top_k m k)
  let L := (models.headD []).length
  let filtered := deltas.map (fun d =>
    d.mapIdx (fun j v => v * (if qsign v = final_sign deltas vote_sgn j then 1 else 0)))
  let param_counts := (List.range L).map (fun j =>
    ((tiesCol deltas j).map
      (fun v => if qsign v = final_sign deltas vote_sgn j then (1 : ℚ) else 0)).sum)
  (filtered, param_counts)

/-- `torch.nan_to_num(s / c)` as used by `ties_sum`: in that call site `c = 0`
forces `s = 0` (proved in `ties_param_counts_zero_imp_sum_zero` below), so the
only special value that can arise is the `0 / 0` NaN, which `nan_to_num` maps
to `0`. -/
def nanToNumDiv (s c : ℚ) : ℚ := if c = 0 ∧ s = 0 then 0 else s / c

/-- `ties_sum(*models, k, vote_sgn) = nan_to_num(sum(filtered_delta, dim=0) /
param_counts)`. -/
def ties_sum (models : List (List ℚ)) (k vote_sgn : ℚ) : List ℚ :=
  let fd := ties_sum_deltas models k vote_sgn
  (List.range (models.headD []).length).map (fun j =>
    nanToNumDiv ((tiesCol fd.1 j).sum) (fd.2.getD j 0))

/-- A tensor for the crossover model: a shape plus flattened data. -/
structure Tensor where
  shape : List ℕ
  data : List ℚ
deriving DecidableEq

/-- `weighted_sum` lifted to `Tensor`. -/
def weighted_sumT (a b : Tensor) (alpha : ℚ) : Tensor :=
  ⟨a.shape, weighted_sum a.data b.data alpha⟩

/-- Outcome of `crossover`: either a degenerate branch returned a tensor, or
control reached the spectral (FFT-blend) path with the recorded arguments. -/
inductive CrossoverResult where
  | ret : Tensor → CrossoverResult
  | spectral : Tensor → Tensor → ℚ → ℚ → CrossoverResult
deriving DecidableEq

/-- `crossover(a, b, alpha, tilt)`: branch structure of the source.  The
half-precision comparison `torch.allclose(a.half(), b.half())` is an external
float16 primitive and is passed in as the parameter `allclose_half`. -/
def crossover (allclose_half : Tensor → Tensor → Bool) (a b : Tensor)
    (alpha tilt : ℚ) : CrossoverResult :=
  if alpha = 0 then .ret a
  else if alpha = 1 then .ret b
  else if tilt = 1 then .ret (weighted_sumT a b alpha)
  else if a.shape.length = 0 ∨ allclose_half a b = true then
    .ret (weighted_sumT a b tilt)
  else .spectral a b alpha tilt

/-- `torch.linspace(a, b, steps)`. -/
def linspace (a b : ℚ) (steps : ℕ) : List ℚ :=
  match steps with
  | 0 => []
  | 1 => [a]
  | n + 2 => (List.range (n + 2)).map (fun j => a + (b - a) * j / (n + 1))

/-- One axis gradient of `create_filter`: `i` is the position in the reversed
shape, `s` the axis length.  The last axis (`i = 0`, half spectrum of `rfftn`)
and singleton axes use `linspace(0, 1, s)`; other axes fold their negative
frequencies symmetrically. -/
def axis_gradient (i s : ℕ) : List ℚ :=
  if i = 0 ∨ s = 1 then linspace 0 1 s
  else
    (linspace 0 (((s - 1) / 2 : ℕ) : ℚ) (s - s / 2) ++
      linspace ((s / 2 : ℕ) : ℚ) 1 (s / 2)).map (fun x => x / ((s / 2 : ℕ) : ℚ))

/-- Row-major list of `Σ gᵢ²` over the cartesian product of the gradients
(`torch.meshgrid(..., indexing='ij')` of the squared gradients, summed). -/
def cart_sq_sums : List (List ℚ) → List ℚ
  | [] => [0]
  | g :: rest =>
    g.foldr (fun x acc => (cart_sq_sums rest).map (fun t => x ^ 2 + t) ++ acc) []

/-- The scalar frequency-distance field of `create_filter`.  `sqrtF` models
`Tensor.sqrt` (only exercised for multi-dimensional shapes).  For the empty
shape the source's `mesh = gradients[0]` raises an `IndexError` (there is no
axis gradient), modelled by the `.error` branch. -/
def create_filter_mesh (sqrtF : ℚ → ℚ) (shape : List ℕ) : Except String (List ℚ) :=
  let gradients := (shape.reverse.enum.map (fun p => axis_gradient p.1 p.2)).reverse
  if 1 < shape.length then
    .ok ((cart_sq_sums gradients).map (fun s => sqrtF (s / shape.length)))
  else
    match gradients with
    | [] => .error "IndexError: list index out of range"
    | g :: _ => .ok g

/-- `tilt -= math.floor(tilt // 4 * 4)`: normalize the tilt into `[0, 4)`. -/
def normTilt (tilt : ℚ) : ℚ := tilt - ⌊tilt / 4⌋ * 4

/-- The guard of the cotangent (linear-ramp) branch of `create_filter`:
neither of the two hard-threshold branches fired. -/
def cot_branch (t : ℚ) : Prop :=
  ¬(t < EPSILON ∨ |t - 4| < EPSILON) ∧ ¬(|t - 2| < EPSILON)

instance (t : ℚ) : Decidable (cot_branch t) := by
  unfold cot_branch; infer_instance

/-- `create_filter(shape, alpha, tilt)`.  `tanPiHalf t` models
`math.tan(math.pi * t / 2)` for the normalized tilt `t`; `sqrtF` models the
mesh square root.  Raises (returns `.error`) the validation error exactly
when `alpha ∉ [0, 1]`, and propagates the mesh `IndexError` raised for the
empty shape. -/
def create_filter (tanPiHalf sqrtF : ℚ → ℚ) (shape : List ℕ) (alpha0 tilt0 : ℚ) :
    Except String (List ℚ) :=
  if ¬(0 ≤ alpha0 ∧ alpha0 ≤ 1) then .error "alpha must be between 0 and 1"
  else
    let t := normTilt tilt0
    let alpha_inverted := 2 < t
    let alpha := if alpha_inverted then 1 - alpha0 else alpha0
    match create_filter_mesh sqrtF shape with
    | .error e => .error e
    | .ok mesh =>
      let f :=
        if t < EPSILON ∨ |t - 4| < EPSILON then
          mesh.map (fun m => if 1 - alpha < m then (1 : ℚ) else 0)
        else if |t - 2| < EPSILON then
          mesh.map (fun m => if m < 1 - alpha then (1 : ℚ) else 0)
        else
          let tilt_cot := 1 / tanPiHalf t
          if t ≤ 1 ∨ (2 < t ∧ t ≤ 3) then
            mesh.map (fun m =>
              min 1 (max 0 (m * tilt_cot + alpha * tilt_cot + alpha - tilt_cot)))
          else
            mesh.map (fun m => min 1 (max 0 (m * tilt_cot - alpha * tilt_cot + alpha)))
      .ok (if alpha_inverted then f.map (fun x => 1 - x) else f)

/-- `true` on `.ok`, `false` on `.error` (i.e. "did not raise"). -/
def exceptIsOk {ε α : Type} (e : Except ε α) : Bool :=
  match e with
  | .ok _ => true
  | .error _ => false

/-- Sum of a list of same-length vectors (`torch.stack(...).sum(dim=0)`). -/
def vecSum : List (List ℚ) → List ℚ
  | [] => []
  | v :: vs => vs.foldl (fun acc w => List.zipWith (· + ·) acc w) v

/-- `weighted_average(points, weights) = sum(p * w) / weights.sum()`. -/
def weighted_average (points : List (List ℚ)) (weights : List ℚ) : List ℚ :=
  (vecSum (List.zipWith (fun p w => p.map (fun x => w * x)) points weights)).map
    (fun x => x / weights.sum)

/-- `geometric_median_objective(median, points, weights)
= mean(stack([l2distance(p, median)]) * weights)`.  The Euclidean distance
`torch.dist(p, q, p=2)` involves a real square root and is abstracted as the
parameter `l2d`; the source guarantees `l2d p p = 0`. -/
def geometric_median_objective (l2d : List ℚ → List ℚ → ℚ) (median : List ℚ)
    (points : List (List ℚ)) (weights : List ℚ) : ℚ :=
  (List.zipWith (fun p w => l2d p median * w) points weights).sum / points.length

/-- The Weiszfeld iteration loop of `geometric_median_list_of_array`, with an
explicit fuel `max(0, round(maxiter))` and the `ftol` early exit (`break`).
Returns the last `new_weights` together with the number of iterations run. -/
def gmLoop (l2d : List ℚ → List ℚ → ℚ) (models : List (List ℚ)) (weights : List ℚ)
    (eps ftol : ℚ) : ℕ → List ℚ → List ℚ → ℚ → List ℚ × ℕ
  | 0, _, new_weights, _ => (new_weights, 0)
  | fuel + 1, median, _, objective_value =>
    let denom := models.map (fun p => l2d p median)
    let new_weights := List.zipWith (fun w d => w / max d eps) weights denom
    let median2 := weighted_average models new_weights
    let obj2 := geometric_median_objective l2d median2 models weights
    if |objective_value - obj2| ≤ ftol * obj2 then (new_weights, 1)
    else
      let r := gmLoop l2d models weights eps ftol fuel median2 new_weights obj2
      (r.1, r.2 + 1)

/-- `geometric_median_list_of_array` up to (but excluding) the final
`weighted_average`: the final weights and the number of iterations run. -/
def gm_run (l2d : List ℚ → List ℚ → ℚ) (models : List (List ℚ))
    (eps maxiter ftol : ℚ) : List ℚ × ℕ :=
  let weights := List.replicate models.length (1 : ℚ)
  let median := weighted_average models weights
  let objective_value := geometric_median_objective l2d median models weights
  gmLoop l2d models weights eps ftol (max 0 (pyRound maxiter)).toNat median weights
    objective_value

/-- `geometric_median_list_of_array(models, eps, maxiter, ftol)`. -/
def geometric_median_list_of_array (l2d : List ℚ → List ℚ → ℚ)
    (models : List (List ℚ)) (eps maxiter ftol : ℚ) : List ℚ :=
  weighted_average models (gm_run l2d models eps maxiter ftol).1

/-- `geometric_median(*models, eps, maxiter, ftol)`: wrapper around
`geometric_median_list_of_array`. -/
def geometric_median (l2d : List ℚ → List ℚ → ℚ) (models : List (List ℚ))
    (eps maxiter ftol : ℚ) : List ℚ :=
  geometric_median_list_of_array l2d models eps maxiter ftol

/-- The ordinary uniform-weight mean of the input tensors (the spec's
"initial mean"), for comparison with the solver's output. -/
def uniform_mean (models : List (List ℚ)) : List ℚ :=
  (vecSum models).map (fun x => x / models.length)

/-- `bin(i).count("1")` for subset indices `i < 2 ^ n`. -/
def popcountBelow (n i : ℕ) : ℕ := (List.range n).countP (fun b => i.testBit b)

/-- `binomial_coefficient_np(n, k)`: the multiplicative-formula loop of the
source, with Python `//` (floor division; all divisors are positive). -/
def binomial_coefficient_np (n k0 : ℕ) : ℤ :=
  let k := if n - k0 < k0 then n - k0 else k0
  (List.range k).foldl (fun r i => r * ((n : ℤ) - (i + 1) + 1) / ((i : ℤ) + 1)) 1

/-- `overlapping_sets_pmf(n, p, overlap, overlap_emphasis)`.  `tanPi x` models
`numpy.tan(numpy.pi * x)` and `expF` models `numpy.exp` (only exercised for
fractional `overlap`). -/
def overlapping_sets_pmf (tanPi expF : ℚ → ℚ) (n : ℕ)
    (p overlap overlap_emphasis : ℚ) : List ℚ :=
  let closeInt := npIsClose overlap (pyRound overlap)
  let ov := if closeInt then overlap else if ⌊overlap⌋ % 2 = 1 then -overlap else overlap
  let pmf0 :=
    if closeInt then
      if pyRound overlap % 2 = 0 then
        (List.range (2 ^ n - 1)).map
          (fun idx => if popcountBelow n (idx + 1) = 1 then 1 / (n : ℚ) else 0)
      else
        (List.range (2 ^ n - 2)).map (fun _ => (0 : ℚ)) ++ [1]
    else
      let tan_overlap := tanPi (ov - 1 / 2)
      let raw := (List.range (2 ^ n - 1)).map
        (fun idx => expF (tan_overlap * ((popcountBelow n (idx + 1) : ℚ) - n / 2)))
      raw.map (fun x => x / raw.sum)
  let binomial_pmf := (List.range n).map
    (fun j => ((n.choose (j + 1)) : ℚ) * p ^ (j + 1) * (1 - p) ^ (n - (j + 1)))
  let expanded0 := (List.range (2 ^ n - 1)).map (fun idx =>
    let num_sets := popcountBelow n (idx + 1)
    binomial_pmf.getD (num_sets - 1) 0 / (binomial_coefficient_np n num_sets : ℚ))
  let expanded := expanded0.map (fun x => x / expanded0.sum)
  let pmf := weighted_sum pmf0
    (weighted_sum pmf0 expanded (1 - |2 * ov - 1|)) overlap_emphasis
  p :: pmf.map (fun x => x * (1 - p))

/-- Inverse-CDF sampling: the least index whose cumulative mass exceeds `u`
(`numpy.random.Generator.choice(ks, p=pmf)` driven by a uniform draw `u`). -/
def invCDF (u : ℚ) : List ℚ → ℕ
  | [] => 0
  | q :: rest => if u < q then 0 else invCDF (u - q) rest + 1

/-- The per-delta boolean inclusion masks of `dropout`.
Odd `overlap`: independent Bernoulli(`1 - probability`) per delta and element,
driven by the uniform stream `u` (draw `i * L + j` for delta `i`, element `j`).
Otherwise: one subset index per element sampled from `overlapping_sets_pmf`
by inverse CDF on `u j`, each delta's mask being bit `i` of that index. -/
def dropout_masks (tanPi expF : ℚ → ℚ) (u : ℕ → ℚ) (n L : ℕ)
    (probability overlap overlap_emphasis : ℚ) : List (List Bool) :=
  if pyMod overlap 2 = 1 then
    (List.range n).map (fun i =>
      (List.range L).map (fun j => decide (u (i * L + j) < 1 - probability)))
  else
    let pmf := overlapping_sets_pmf tanPi expF n probability overlap overlap_emphasis
    (List.range n).map (fun i =>
      (List.range L).map (fun j => (invCDF (u j) pmf).testBit i))

/-- `dropout(delta0, *deltas, probability, rescale, overlap, overlap_emphasis,
seed)`.  `upow b e` models the float power `b ** e`; the seed only seeds the
rng, which the stream `u` abstracts.  In the rational model the computed
rescalar is always finite, so the source's `isfinite` fallback to `1` never
fires; the `probability == 1.0` branch sets it to `1` directly. -/
def dropout (upow : ℚ → ℚ → ℚ) (tanPi expF : ℚ → ℚ) (u : ℕ → ℚ) (seed : ℚ)
    (delta0 : List ℚ) (deltas0 : List (List ℚ))
    (probability rescale overlap overlap_emphasis : ℚ) : List ℚ :=
  let deltas := delta0 :: deltas0
  let n := deltas.length
  let L := delta0.length
  let masks := dropout_masks tanPi expF u n L probability overlap overlap_emphasis
  let final_delta := fun j => ((List.range n).map (fun i =>
    if (masks.getD i []).getD j false then (deltas.getD i []).getD j 0 else 0)).sum
  let mask_count := fun j => ((List.range n).map (fun i =>
    if (masks.getD i []).getD j false then (1 : ℚ) else 0)).sum
  let rescalar := if probability = 1 then 1 else upow (1 - probability) rescale
  (List.range L).map (fun j => final_delta j / max (mask_count j) 1 / rescalar)

/-! ### slerp: exact-real model with IEEE special values

`slerp` is the one operator whose specified behaviour is about NaN
propagation, so its elementwise values are modelled by `FV`: a finite real, a
signed infinity, or NaN, with the IEEE propagation rules for the operations
the source uses.  The inputs are finite tensors (`List ℝ`). -/

/-- An IEEE-style value: finite, signed infinity (`true` = `+∞`), or NaN. -/
inductive FV where
  | fin : ℝ → FV
  | inf : Bool → FV
  | nan : FV

/-- `true` exactly on NaN (`torch.isnan`). -/
def isNanFV : FV → Bool
  | .nan => true
  | _ => false

/-- `true` exactly on finite values. -/
def isFinFV : FV → Bool
  | .fin _ => true
  | _ => false

noncomputable section

/-- IEEE addition. -/
def addFV : FV → FV → FV
  | .nan, _ => .nan
  | _, .nan => .nan
  | .inf s, .inf t => if s = t then .inf s else .nan
  | .inf s, .fin _ => .inf s
  | .fin _, .inf t => .inf t
  | .fin x, .fin y => .fin (x + y)

/-- IEEE multiplication. -/
def mulFV : FV → FV → FV
  | .nan, _ => .nan
  | _, .nan => .nan
  | .inf s, .inf t => .inf (s == t)
  | .inf s, .fin y => if y = 0 then .nan else if 0 < y then .inf s else .inf (!s)
  | .fin x, .inf t => if x = 0 then .nan else if 0 < x then .inf t else .inf (!t)
  | .fin x, .fin y => .fin (x * y)

/-- IEEE division (signed zeros are not modelled; `x / 0` for finite `x ≠ 0`
takes the sign of `x`). -/
def divFV : FV → FV → FV
  | .nan, _ => .nan
  | _, .nan => .nan
  | .inf _, .inf _ => .nan
  | .inf s, .fin y => if y < 0 then .inf (!s) else .inf s
  | .fin _, .inf _ => .fin 0
  | .fin x, .fin y =>
    if y = 0 then (if x = 0 then .nan else if 0 < x then .inf true else .inf false)
    else .fin (x / y)

/-- `Tensor.clamp(lo, hi)`: NaN propagates, infinities clamp to the bounds. -/
def clampFV (lo hi : ℝ) : FV → FV
  | .fin x => .fin (max lo (min hi x))
  | .inf s => .fin (if s then hi else lo)
  | .nan => .nan

/-- `torch.arccos`: NaN outside `[-1, 1]` and on non-finite input. -/
def arccosFV : FV → FV
  | .fin x => if -1 ≤ x ∧ x ≤ 1 then .fin (Real.arccos x) else .nan
  | _ => .nan

/-- `torch.sin`: NaN on non-finite input. -/
def sinFV : FV → FV
  | .fin x => .fin (Real.sin x)
  | _ => .nan

/-- `Σ x²` of a real list. -/
def sumSq (l : List ℝ) : ℝ := (l.map (fun x => x ^ 2)).sum

/-- `Tensor.norm()`: the Frobenius norm `√(Σ x²)`. -/
def norm2 (l : List ℝ) : ℝ := Real.sqrt (sumSq l)

/-- `a / a.norm()` elementwise (NaN where `0 / 0`). -/
def normalizeFV (a : List ℝ) : List FV :=
  a.map (fun x => divFV (.fin x) (.fin (norm2 a)))

/-- `(u * v).sum()` over `FV` values. -/
def dotFV (u v : List FV) : FV := (List.zipWith mulFV u v).foldr addFV (.fin 0)

/-- The argument handed to `arccos` by `slerp`:
`(a_normalized * b_normalized).sum().clamp(-1, 1)`. -/
def omega_arg (a b : List ℝ) : FV :=
  clampFV (-1) 1 (dotFV (normalizeFV a) (normalizeFV b))

/-- The candidate result of `slerp` before the NaN check:
`(a_n * sin((1-α)ω) + b_n * sin(αω)) / sin(ω) * weighted_sum(‖a‖, ‖b‖, α)`. -/
def slerpRes (a b : List ℝ) (alpha : ℝ) : List FV :=
  let omega := arccosFV (omega_arg a b)
  let a_contrib := (normalizeFV a).map
    (fun x => mulFV x (sinFV (mulFV (.fin (1 - alpha)) omega)))
  let b_contrib := (normalizeFV b).map
    (fun x => mulFV x (sinFV (mulFV (.fin alpha) omega)))
  let res := (List.zipWith addFV a_contrib b_contrib).map
    (fun x => divFV x (sinFV omega))
  let m := (1 - alpha) * norm2 a + alpha * norm2 b
  res.map (fun x => mulFV x (.fin m))

/-- `slerp(a, b, alpha)`: the candidate result, unless it contains a NaN, in
which case `weighted_sum(a, b, alpha)` is returned instead. -/
def slerp (a b : List ℝ) (alpha : ℝ) : List FV :=
  if (slerpRes a b alpha).any isNanFV then (weighted_sum a b alpha).map FV.fin
  else slerpRes a b alpha

end

/-! ### Helper lemmas -/

theorem getD_zipWith (f : ℚ → ℚ → ℚ) (a : List ℚ) :
    ∀ (b : List ℚ) (j : ℕ), j < a.length → j < b.length →
      (List.zipWith f a b).getD j 0 = f (a.getD j 0) (b.getD j 0) := by
  induction a with
  | nil => intro b j h _; simp at h
  | cons x xs ih =>
    intro b j hja hjb
    cases b with
    | nil => simp at hjb
    | cons y ys =>
      cases j with
      | zero => simp
      | succ j => simpa using ih ys j (by simpa using hja) (by simpa using hjb)

theorem weighted_sum_zero (a : List ℚ) :
    ∀ b : List ℚ, a.length = b.length → weighted_sum a b 0 = a := by
  induction a with
  | nil => intro b _; simp [weighted_sum]
  | cons x xs ih =>
    intro b hb
    cases b with
    | nil => simp at hb
    | cons y ys =>
      simp only [weighted_sum, List.zipWith_cons_cons] at *
      rw [ih ys (by simpa using hb)]
      norm_num

theorem weighted_sum_one (a : List ℚ) :
    ∀ b : List ℚ, a.length = b.length → weighted_sum a b 1 = b := by
  induction a with
  | nil =>
    intro b hb
    cases b with
    | nil => simp [weighted_sum]
    | cons y ys => simp at hb
  | cons x xs ih =>
    intro b hb
    cases b with
    | nil => simp at hb
    | cons y ys =>
      simp only [weighted_sum, List.zipWith_cons_cons] at *
      rw [ih ys (by simpa using hb)]
      norm_num

theorem weighted_sum_self (a : List ℚ) (alpha : ℚ) : weighted_sum a a alpha = a := by
  unfold weighted_sum
  rw [List.zipWith_same]
  have h2 : a.map (fun x => (1 - alpha) * x + alpha * x) = a.map id :=
    List.map_congr_left (fun x _ => by simp only [id_eq]; ring)
  rw [h2, List.map_id]

/-- Claim C9: `weighted_sum` computes `(1-alpha)*a + alpha*b` elementwise, and
satisfies `weighted_sum(a, a, alpha) = a` for every `alpha`,
`weighted_sum(a, b, 0) = a`, and `weighted_sum(a, b, 1) = b`. -/
theorem weighted_sum_props (a b : List ℚ) (alpha : ℚ) (hlen : a.length = b.length) :
    (∀ j, j < a.length →
      (weighted_sum a b alpha).getD j 0 =
        (1 - alpha) * a.getD j 0 + alpha * b.getD j 0)
    ∧ weighted_sum a a alpha = a
    ∧ weighted_sum a b 0 = a
    ∧ weighted_sum a b 1 = b := by
  refine ⟨fun j hj => ?_, weighted_sum_self a alpha,
    weighted_sum_zero a b hlen, weighted_sum_one a b hlen⟩
  exact getD_zipWith _ a b j hj (hlen ▸ hj)

/-- Witness for C9 at `a = [3, 5]`, `b = [7, 11]`, `alpha = 1/4`. -/
theorem weighted_sum_props_witness :
    (weighted_sum [(3 : ℚ), 5] [7, 11] (1 / 4)).getD 0 0
        = (1 - 1 / 4) * 3 + (1 / 4) * 7
    ∧ weighted_sum [(3 : ℚ), 5] [3, 5] (1 / 4) = [3, 5]
    ∧ weighted_sum [(3 : ℚ), 5] [7, 11] 0 = [3, 5]
    ∧ weighted_sum [(3 : ℚ), 5] [7, 11] 1 = [7, 11] := by
  obtain ⟨h1, h2, h3, h4⟩ := weighted_sum_props [(3 : ℚ), 5] [7, 11] (1 / 4) rfl
  refine ⟨?_, ?_, h3, h4⟩
  · simpa using h1 0 (by norm_num)
  · exact weighted_sum_self [(3 : ℚ), 5] (1 / 4)

/-! ### Python round lemmas -/

theorem floor_le_pyRound (q : ℚ) : ⌊q⌋ ≤ pyRound q := by
  unfold pyRound
  split_ifs <;> omega

theorem pyRound_le_floor_add_one (q : ℚ) : pyRound q ≤ ⌊q⌋ + 1 := by
  unfold pyRound
  split_ifs <;> omega

theorem pyRound_mono {q r : ℚ} (h : q ≤ r) : pyRound q ≤ pyRound r := by
  rcases lt_or_eq_of_le (Int.floor_le_floor h) with hf | hf
  · calc pyRound q ≤ ⌊q⌋ + 1 := pyRound_le_floor_add_one q
      _ ≤ ⌊r⌋ := by omega
      _ ≤ pyRound r := floor_le_pyRound r
  · unfold pyRound
    rw [hf]
    have h1 : (⌊r⌋ : ℚ) ≤ q := by rw [← hf]; exact Int.floor_le q
    split_ifs <;> first | omega | (exfalso; linarith)

theorem pyRound_intCast (n : ℤ) : pyRound (n : ℚ) = n := by
  unfold pyRound
  rw [Int.floor_intCast]
  rw [if_pos (by norm_num : ((n : ℚ) - n) < 1 / 2)]

theorem pyRound_nonneg {q : ℚ} (h : 0 ≤ q) : 0 ≤ pyRound q :=
  le_trans (by simpa using Int.floor_le_floor h) (floor_le_pyRound q)

theorem pyRound_le_nat {q : ℚ} (n : ℕ) (h : q ≤ (n : ℚ)) : pyRound q ≤ (n : ℤ) := by
  have := pyRound_mono h
  rwa [show ((n : ℚ)) = ((n : ℤ) : ℚ) by norm_num, pyRound_intCast] at this

/-- Claim C10: for every real `width`, real `offset` and positive `n`,
`ratio_to_region` returns `start` and `end` with `0 ≤ start ≤ end ≤ n`, so
`[start, end)` is always a valid slice of a length-`n` dimension. -/
theorem ratio_to_region_bounds (width offset : ℚ) (n : ℕ) (hn : 0 < n) :
    0 ≤ (ratio_to_region width offset n).1
    ∧ (ratio_to_region width offset n).1 ≤ (ratio_to_region width offset n).2.1
    ∧ (ratio_to_region width offset n).2.1 ≤ (n : ℤ) := by
  simp only [ratio_to_region]
  set o1 := if width < 0 then offset + width else offset with ho1
  set w1 := if width < 0 then -width else width with hw1
  have hw1nn : 0 ≤ w1 := by
    rw [hw1]; split_ifs with h
    · linarith
    · exact le_of_not_lt h
  set w2 := min w1 1 with hw2
  have hw2nn : 0 ≤ w2 := le_min hw1nn (by norm_num)
  have hw2le : w2 ≤ 1 := min_le_right w1 1
  set o2 := if o1 < 0 then 1 + o1 - ratTrunc o1 else o1 with ho2
  have ho2nn : 0 ≤ o2 := by
    rw [ho2]; split_ifs with h
    · have h1 : ratTrunc o1 = ⌈o1⌉ := by unfold ratTrunc; rw [if_neg (by linarith)]
      have h2 : (⌈o1⌉ : ℚ) < o1 + 1 := Int.ceil_lt_add_one o1
      rw [h1]; linarith
    · exact le_of_not_lt h
  set o3 := pyFmod1 o2 with ho3
  have ho3nn : 0 ≤ o3 := by
    rw [ho3]; unfold pyFmod1 ratTrunc
    rw [if_pos ho2nn]
    have := Int.floor_le o2
    linarith
  have ho3lt : o3 < 1 := by
    rw [ho3]; unfold pyFmod1 ratTrunc
    rw [if_pos ho2nn]
    have := Int.lt_floor_add_one o2
    linarith
  have hnn : (0 : ℚ) ≤ (n : ℚ) := by positivity
  split_ifs with hcase
  · dsimp only
    refine ⟨pyRound_nonneg (mul_nonneg ho3nn hnn), pyRound_mono ?_, pyRound_le_nat n ?_⟩
    · apply mul_le_mul_of_nonneg_right _ hnn; linarith
    · calc (w2 + o3) * n ≤ 1 * n := mul_le_mul_of_nonneg_right hcase hnn
        _ = (n : ℚ) := one_mul _
  · push_neg at hcase
    dsimp only
    refine ⟨pyRound_nonneg (mul_nonneg (by linarith) hnn), pyRound_mono ?_,
      pyRound_le_nat n ?_⟩
    · apply mul_le_mul_of_nonneg_right _ hnn; linarith
    · calc o3 * n ≤ 1 * n := mul_le_mul_of_nonneg_right (le_of_lt ho3lt) hnn
        _ = (n : ℚ) := one_mul _

/-- Witness for C10 at `width = 0.3`, `offset = 0.2`, `n = 10`. -/
theorem ratio_to_region_bounds_witness :
    0 ≤ (ratio_to_region (3 / 10) (2 / 10) 10).1
    ∧ (ratio_to_region (3 / 10) (2 / 10) 10).1
        ≤ (ratio_to_region (3 / 10) (2 / 10) 10).2.1
    ∧ (ratio_to_region (3 / 10) (2 / 10) 10).2.1 ≤ (10 : ℤ) :=
  ratio_to_region_bounds (3 / 10) (2 / 10) 10 (by norm_num)

/-! ### crossover (C2) -/

/-- Counterexample for claim C2 as stated: in the 0-dimensional (and
half-precision-indistinguishable) branch the source returns
`weighted_sum(a, b, alpha=tilt)`, not `weighted_sum(a, b, alpha)`.  At
`a = scalar 0`, `b = scalar 1`, `alpha = 1/2`, `tilt = 1/4` the result is
the scalar `1/4`, while `weighted_sum(a, b, alpha)` is the scalar `1/2`. -/
theorem crossover_scalar_branch_counterexample :
    crossover (fun _ _ => false) ⟨[], [0]⟩ ⟨[], [1]⟩ (1 / 2) (1 / 4)
        = CrossoverResult.ret ⟨[], [1 / 4]⟩
    ∧ weighted_sumT ⟨[], [(0 : ℚ)]⟩ ⟨[], [1]⟩ (1 / 2) = ⟨[], [1 / 2]⟩
    ∧ (⟨[], [1 / 4]⟩ : Tensor) ≠ ⟨[], [1 / 2]⟩ := by
  refine ⟨?_, ?_, ?_⟩
  · norm_num [crossover, weighted_sumT, weighted_sum]
  · norm_num [weighted_sumT, weighted_sum]
  · intro h
    have h2 := congrArg Tensor.data h
    simp at h2

/-- Claim C2 (amended): `crossover` returns `a` exactly when `alpha = 0` and
`b` exactly when `alpha = 1`, for every tilt; it returns
`weighted_sum(a, b, alpha)` when `tilt = 1`; and it returns
`weighted_sum(a, b, tilt)` — with the `tilt` parameter as the mixing weight —
when `a` is 0-dimensional or when `a` and `b` are numerically
indistinguishable at half precision. -/
theorem crossover_degenerate_cases (ach : Tensor → Tensor → Bool) (a b : Tensor)
    (alpha tilt : ℚ) :
    (alpha = 0 → crossover ach a b alpha tilt = .ret a)
    ∧ (alpha = 1 → crossover ach a b alpha tilt = .ret b)
    ∧ (alpha ≠ 0 → alpha ≠ 1 → tilt = 1 →
        crossover ach a b alpha tilt = .ret (weighted_sumT a b alpha))
    ∧ (alpha ≠ 0 → alpha ≠ 1 → tilt ≠ 1 →
        (a.shape.length = 0 ∨ ach a b = true) →
        crossover ach a b alpha tilt = .ret (weighted_sumT a b tilt)) := by
  unfold crossover
  refine ⟨fun h0 => ?_, fun h1 => ?_, fun h0 h1 ht => ?_, fun h0 h1 ht hd => ?_⟩
  · rw [if_pos h0]
  · rw [if_neg (by rw [h1]; norm_num), if_pos h1]
  · rw [if_neg h0, if_neg h1, if_pos ht]
  · rw [if_neg h0, if_neg h1, if_neg ht, if_pos hd]

/-- Witness for C2 exercising all four short-circuits on concrete tensors. -/
theorem crossover_degenerate_cases_witness :
    crossover (fun _ _ => false) ⟨[2], [5, 6]⟩ ⟨[2], [7, 8]⟩ 0 (1 / 3)
        = .ret ⟨[2], [5, 6]⟩
    ∧ crossover (fun _ _ => false) ⟨[2], [5, 6]⟩ ⟨[2], [7, 8]⟩ 1 (1 / 3)
        = .ret ⟨[2], [7, 8]⟩
    ∧ crossover (fun _ _ => false) ⟨[2], [5, 6]⟩ ⟨[2], [7, 8]⟩ (1 / 2) 1
        = .ret (weighted_sumT ⟨[2], [5, 6]⟩ ⟨[2], [7, 8]⟩ (1 / 2))
    ∧ crossover (fun _ _ => false) ⟨[], [5]⟩ ⟨[], [7]⟩ (1 / 2) (1 / 3)
        = .ret (weighted_sumT ⟨[], [5]⟩ ⟨[], [7]⟩ (1 / 3)) := by
  refine ⟨?_, ?_, ?_, ?_⟩
  · exact (crossover_degenerate_cases _ _ _ 0 (1 / 3)).1 rfl
  · exact (crossover_degenerate_cases _ _ _ 1 (1 / 3)).2.1 rfl
  · exact (crossover_degenerate_cases _ _ _ (1 / 2) 1).2.2.1
      (by norm_num) (by norm_num) rfl
  · exact (crossover_degenerate_cases _ _ _ (1 / 2) (1 / 3)).2.2.2
      (by norm_num) (by norm_num) (by norm_num) (Or.inl rfl)

/-! ### filter_top_k (C3) -/

theorem filter_top_k_eq_map (a : List ℚ) (k : ℚ) :
    filter_top_k a k = a.map (fun x => x * (if topKValue a k ≤ |x| then 1 else 0)) := rfl

theorem sorted_drop_count (S : List ℚ) (hs : S.Sorted (· ≤ ·)) (m : ℕ)
    (hm : m < S.length) :
    S.length - m ≤ S.countP (fun y => decide (S.getD m 0 ≤ y)) := by
  have hall : ∀ y ∈ S.drop m, (fun y => decide (S.getD m 0 ≤ y)) y = true := by
    intro y hy
    rw [List.mem_iff_getElem] at hy
    obtain ⟨j, hj, hjy⟩ := hy
    have hj2 : m + j < S.length := by
      have := List.length_drop m S
      omega
    have hy2 : S[m + j] = y := by rw [← List.getElem_drop S]; exact hjy
    simp only [decide_eq_true_eq]
    rw [List.getD_eq_getElem S 0 hm, ← hy2]
    rcases Nat.eq_zero_or_pos j with hj0 | hj0
    · subst hj0; simp
    · rw [List.Sorted, List.pairwise_iff_getElem] at hs
      exact hs m (m + j) hm hj2 (by omega)
  calc S.length - m = (S.drop m).length := (List.length_drop m S).symm
    _ = (S.drop m).countP (fun y => decide (S.getD m 0 ≤ y)) :=
        (List.countP_eq_length.mpr hall).symm
    _ ≤ (S.take m).countP (fun y => decide (S.getD m 0 ≤ y)) +
        (S.drop m).countP (fun y => decide (S.getD m 0 ≤ y)) := Nat.le_add_left _ _
    _ = S.countP (fun y => decide (S.getD m 0 ≤ y)) := by
        rw [← List.countP_append, List.take_append_drop]

theorem topKIndex_bounds (len : ℕ) (k : ℚ) (hk0 : 0 ≤ k) (hlen : 1 ≤ len) :
    1 ≤ topKIndex len k ∧ topKIndex len k ≤ len := by
  unfold topKIndex
  constructor
  · have h1 : (1 : ℤ) ≤ max (ratTrunc ((1 - k) * len)) 1 := le_max_right _ _
    omega
  · have h1 : ratTrunc ((1 - k) * len) ≤ (len : ℤ) := by
      unfold ratTrunc
      split_ifs with h
      · have hle : (1 - k) * (len : ℚ) ≤ (len : ℚ) := by
          have hn : (0 : ℚ) ≤ (len : ℚ) := by positivity
          nlinarith
        calc ⌊(1 - k) * (len : ℚ)⌋ ≤ ⌊(len : ℚ)⌋ := Int.floor_le_floor hle
          _ = len := Int.floor_natCast len
      · have h2 : ⌈(1 - k) * (len : ℚ)⌉ ≤ (0 : ℤ) :=
          Int.ceil_le.mpr (by push_cast; linarith [not_le.mp h])
        omega
    have h2 : max (ratTrunc ((1 - k) * len)) 1 ≤ (len : ℤ) :=
      max_le h1 (by exact_mod_cast hlen)
    omega

/-- Counterexample for claim C3 as stated: the fraction of elements kept is
not `1 - k`.  With `a = [1, 2, 3, 4, 5]` and `k = 1/5`, the threshold rank is
`max(int((1 - 1/5) * 5), 1) = 4`, the 4th smallest absolute value is `4`, and
only `2` of the `5` elements survive (`2/5 ≠ 1 - 1/5 = 4/5`). -/
theorem filter_top_k_fraction_counterexample :
    filter_top_k [(1 : ℚ), 2, 3, 4, 5] (1 / 5) = [0, 0, 0, 4, 5]
    ∧ keptCount (filter_top_k [(1 : ℚ), 2, 3, 4, 5] (1 / 5)) = 2
    ∧ ((2 : ℚ) / 5) ≠ 1 - 1 / 5 := by
  have h1 : filter_top_k [(1 : ℚ), 2, 3, 4, 5] (1 / 5) = [0, 0, 0, 4, 5] := by
    norm_num [filter_top_k, ratTrunc, List.insertionSort, List.orderedInsert]
    norm_num [show ([(1 : ℚ), 2, 3, 4, 5][Int.toNat 4 - 1]?) = some 4 from rfl]
  refine ⟨h1, ?_, by norm_num⟩
  rw [h1]
  simp [keptCount, List.countP_cons]

/-- Claim C3 (amended): in the TIES trim step an element is kept iff its
absolute value is `≥` the `max(int((1 - k) * numel), 1)`-th smallest absolute
value (so ties at the threshold survive), and at least
`numel - (that rank - 1)` elements survive — nominally about a `k` fraction,
not the `1 - k` fraction of the claim. -/
theorem filter_top_k_keep_rule (a : List ℚ) (k : ℚ) (hk0 : 0 ≤ k)
    (hlen : 1 ≤ a.length) :
    (∀ j, j < a.length →
      (filter_top_k a k).getD j 0 =
        if topKValue a k ≤ |a.getD j 0| then a.getD j 0 else 0)
    ∧ a.length - (topKIndex a.length k - 1)
        ≤ a.countP (fun x => decide (topKValue a k ≤ |x|)) := by
  constructor
  · intro j hj
    rw [filter_top_k_eq_map]
    rw [List.getD_eq_getElem _ 0 (by simpa using hj), List.getElem_map,
      List.getD_eq_getElem a 0 hj]
    split_ifs <;> ring
  · obtain ⟨hi1, hi2⟩ := topKIndex_bounds a.length k hk0 hlen
    have hSlen : (List.insertionSort (· ≤ ·) (a.map (fun x => |x|))).length
        = a.length := by
      rw [List.length_insertionSort, List.length_map]
    have hm : topKIndex a.length k - 1
        < (List.insertionSort (· ≤ ·) (a.map (fun x => |x|))).length := by omega
    have hcount := sorted_drop_count _ (List.sorted_insertionSort _ _)
      (topKIndex a.length k - 1) hm
    have hperm : List.Perm (List.insertionSort (· ≤ ·) (a.map (fun x => |x|)))
        (a.map fun x => |x|) := List.perm_insertionSort _ _
    have hc2 : (List.insertionSort (· ≤ ·) (a.map (fun x => |x|))).countP
          (fun y => decide (topKValue a k ≤ y))
        = a.countP (fun x => decide (topKValue a k ≤ |x|)) := by
      rw [hperm.countP_eq, List.countP_map]
      rfl
    have hv : topKValue a k
        = (List.insertionSort (· ≤ ·) (a.map (fun x => |x|))).getD
            (topKIndex a.length k - 1) 0 := rfl
    calc a.length - (topKIndex a.length k - 1)
        = (List.insertionSort (· ≤ ·) (a.map (fun x => |x|))).length
            - (topKIndex a.length k - 1) := by omega
      _ ≤ (List.insertionSort (· ≤ ·) (a.map (fun x => |x|))).countP
            (fun y => decide ((List.insertionSort (· ≤ ·)
              (a.map (fun x => |x|))).getD (topKIndex a.length k - 1) 0 ≤ y)) := hcount
      _ = a.countP (fun x => decide (topKValue a k ≤ |x|)) := by rw [← hv, hc2]

/-- Witness for C3 at `a = [1, 2, 3, 4, 5]`, `k = 1/5`. -/
theorem filter_top_k_keep_rule_witness :
    (filter_top_k [(1 : ℚ), 2, 3, 4, 5] (1 / 5)).getD 0 0
      = (if topKValue [(1 : ℚ), 2, 3, 4, 5] (1 / 5) ≤ |[(1 : ℚ), 2, 3, 4, 5].getD 0 0|
          then [(1 : ℚ), 2, 3, 4, 5].getD 0 0 else 0)
    ∧ [(1 : ℚ), 2, 3, 4, 5].length
        - (topKIndex [(1 : ℚ), 2, 3, 4, 5].length (1 / 5) - 1)
      ≤ [(1 : ℚ), 2, 3, 4, 5].countP
          (fun x => decide (topKValue [(1 : ℚ), 2, 3, 4, 5] (1 / 5) ≤ |x|)) := by
  obtain ⟨h1, h2⟩ := filter_top_k_keep_rule [(1 : ℚ), 2, 3, 4, 5] (1 / 5)
    (by norm_num) (by norm_num)
  exact ⟨h1 0 (by norm_num), h2⟩

/-! ### ties_sum (C1) -/

theorem qsign_eq_zero_iff (x : ℚ) : qsign x = 0 ↔ x = 0 := by
  unfold qsign
  split_ifs with h1 h2
  · constructor <;> intro h <;> [norm_num at h; linarith]
  · constructor <;> intro h <;> [norm_num at h; linarith]
  · constructor <;> intro h <;> [linarith; rfl]

theorem getD_map_range {α : Type} (f : ℕ → α) (d : α) (L j : ℕ) (hj : j < L) :
    ((List.range L).map f).getD j d = f j := by
  rw [List.getD_eq_getElem _ d (by simpa using hj), List.getElem_map,
    List.getElem_range]

theorem getD_mapIdx (f : ℕ → ℚ → ℚ) (l : List ℚ) (j : ℕ) (hj : j < l.length) :
    (l.mapIdx f).getD j 0 = f j (l.getD j 0) := by
  rw [List.getD_eq_getElem _ 0 (by simpa using hj), List.getElem_mapIdx,
    List.getD_eq_getElem l 0 hj]

theorem sum_nonneg_all_zero {K : Type} [LinearOrderedField K] (l : List K)
    (hnn : ∀ x ∈ l, 0 ≤ x) (hs : l.sum = 0) :
    ∀ x ∈ l, x = 0 := by
  induction l with
  | nil => simp
  | cons a t ih =>
    have ha : 0 ≤ a := hnn a (by simp)
    have ht : 0 ≤ t.sum := List.sum_nonneg (fun x hx => hnn x (by simp [hx]))
    have hsum : a + t.sum = 0 := by simpa using hs
    intro x hx
    rcases List.mem_cons.mp hx with hx | hx
    · subst hx; linarith
    · exact ih (fun y hy => hnn y (by simp [hy])) (by linarith) x hx

/-- In `ties_sum`, a zero `param_counts` entry forces the corresponding
filtered-delta column to sum to zero: the `0 / 0` NaN is the only special
value `nan_to_num` ever sees there (which justifies `nanToNumDiv`). -/
theorem ties_param_counts_zero_imp_sum_zero (models : List (List ℚ))
    (k vote_sgn : ℚ) (j : ℕ) (hj : j < (models.headD []).length)
    (hlen : ∀ m ∈ models, m.length = (models.headD []).length)
    (hc : (ties_sum_deltas models k vote_sgn).2.getD j 0 = 0) :
    (tiesCol (ties_sum_deltas models k vote_sgn).1 j).sum = 0 := by
  set deltas := models.map (fun m => filter_top_k m k) with hdeltas
  have hcount : (ties_sum_deltas models k vote_sgn).2.getD j 0 =
      ((tiesCol deltas j).map
        (fun v => if qsign v = final_sign deltas vote_sgn j then (1 : ℚ) else 0)).sum :=
    getD_map_range _ _ _ j hj
  rw [hcount] at hc
  have hind : ∀ v ∈ tiesCol deltas j,
      (if qsign v = final_sign deltas vote_sgn j then (1 : ℚ) else 0) = 0 := by
    intro v hv
    refine sum_nonneg_all_zero _ (fun x hx => ?_) hc _ (List.mem_map_of_mem _ hv)
    obtain ⟨w, _, hw⟩ := List.mem_map.mp hx
    rw [← hw]
    split_ifs <;> norm_num
  apply List.sum_eq_zero
  intro x hx
  obtain ⟨row, hrow, hrowx⟩ := List.mem_map.mp hx
  obtain ⟨d, hd, hdrow⟩ := List.mem_map.mp hrow
  obtain ⟨m, hm, hmd⟩ := List.mem_map.mp hd
  have hdlen : d.length = (models.headD []).length := by
    rw [← hmd]
    unfold filter_top_k
    rw [List.length_map]
    exact hlen m hm
  rw [← hrowx, ← hdrow, getD_mapIdx _ _ j (by omega)]
  rw [hind (d.getD j 0) (List.mem_map_of_mem _ hd)]
  ring

/-- Claim C1: for `ties_sum` over `n ≥ 1` deltas, at every element where the
elected consensus sign is `0` while every trimmed delta is nonzero there
(sign `±1`), no delta matches the consensus, `param_counts` is `0` at that
element, and the returned tensor is `0` there (the `0/0` NaN is sanitized to
`0`); the computation is total, so no error is raised. -/
theorem ties_sum_zero_consensus (models : List (List ℚ)) (k vote_sgn : ℚ) (j : ℕ)
    (hj : j < (models.headD []).length)
    (hsign : final_sign (models.map (fun m => filter_top_k m k)) vote_sgn j = 0)
    (hnz : ∀ d ∈ models.map (fun m => filter_top_k m k), d.getD j 0 ≠ 0) :
    (∀ d ∈ models.map (fun m => filter_top_k m k),
      qsign (d.getD j 0) ≠
        final_sign (models.map (fun m => filter_top_k m k)) vote_sgn j)
    ∧ (ties_sum_deltas models k vote_sgn).2.getD j 0 = 0
    ∧ (ties_sum models k vote_sgn).getD j 0 = 0 := by
  set deltas := models.map (fun m => filter_top_k m k) with hdeltas
  have hne : ∀ d ∈ deltas, qsign (d.getD j 0) ≠ final_sign deltas vote_sgn j := by
    intro d hd hq
    rw [hsign] at hq
    exact hnz d hd ((qsign_eq_zero_iff _).mp hq)
  have hcol : ∀ v ∈ tiesCol deltas j, qsign v ≠ final_sign deltas vote_sgn j := by
    intro v hv
    obtain ⟨d, hd, hdv⟩ := List.mem_map.mp hv
    rw [← hdv]
    exact hne d hd
  have hcount : (ties_sum_deltas models k vote_sgn).2.getD j 0 = 0 := by
    have h0 : (ties_sum_deltas models k vote_sgn).2.getD j 0 =
        ((tiesCol deltas j).map
          (fun v => if qsign v = final_sign deltas vote_sgn j then (1 : ℚ) else 0)).sum :=
      getD_map_range _ _ _ j hj
    rw [h0]
    apply List.sum_eq_zero
    intro x hx
    obtain ⟨v, hv, hvx⟩ := List.mem_map.mp hx
    rw [← hvx, if_neg (hcol v hv)]
  refine ⟨hne, hcount, ?_⟩
  have hsum : (tiesCol (ties_sum_deltas models k vote_sgn).1 j).sum = 0 := by
    apply List.sum_eq_zero
    intro x hx
    obtain ⟨row, hrow, hrowx⟩ := List.mem_map.mp hx
    obtain ⟨d, hd, hdrow⟩ := List.mem_map.mp hrow
    have hjd : j < d.length := by
      by_contra hge
      exact hnz d hd (List.getD_eq_default d 0 (by omega))
    rw [← hrowx, ← hdrow, getD_mapIdx _ _ j hjd, if_neg (hne d hd), mul_zero]
  have hres : (ties_sum models k vote_sgn).getD j 0 =
      nanToNumDiv ((tiesCol (ties_sum_deltas models k vote_sgn).1 j).sum)
        ((ties_sum_deltas models k vote_sgn).2.getD j 0) :=
    getD_map_range _ _ _ j hj
  rw [hres, hsum, hcount]
  unfold nanToNumDiv
  norm_num

/-- Witness for C1 at two opposite single-element deltas `[1]`, `[-1]`,
`k = 0`, `vote_sgn = 0`, element `0`. -/
theorem ties_sum_zero_consensus_witness :
    (ties_sum_deltas [[(1 : ℚ)], [-1]] 0 0).2.getD 0 0 = 0
    ∧ (ties_sum [[(1 : ℚ)], [-1]] 0 0).getD 0 0 = 0 := by
  have hfk1 : filter_top_k [(1 : ℚ)] 0 = [1] := by
    norm_num [filter_top_k, ratTrunc]
  have hfk2 : filter_top_k [(-1 : ℚ)] 0 = [-1] := by
    norm_num [filter_top_k, ratTrunc]
  have h := ties_sum_zero_consensus [[(1 : ℚ)], [-1]] 0 0 0 (by norm_num)
    (by
      norm_num [final_sign, tiesCol, hfk1, hfk2]
      norm_num [qsign])
    (by
      intro d hd
      simp only [List.map_cons, List.map_nil, hfk1, hfk2] at hd
      rcases List.mem_cons.mp hd with h1 | h1
      · subst h1; norm_num
      · rcases List.mem_cons.mp h1 with h2 | h2
        · subst h2; norm_num
        · simp at h2)
  exact ⟨h.2.1, h.2.2⟩

/-! ### create_filter (C5, C8) -/

/-- Claim C5 disproof / code bug record: at `shape = (2,)`, `alpha = 1`,
`tilt = 0` the filter is `[0, 1]`, not all-one: the strict comparison
`mesh > 1 - alpha` leaves the zero-frequency entry (where `mesh = 0`) at `0`,
although the function's own docstring says `1 = all 1s`.  (At `alpha = 0` the
same input produces the all-zero filter, as claimed.)  The abstract `tan` and
`sqrt` parameters are irrelevant on this 1-D hard-threshold path. -/
theorem create_filter_alpha_one_failing :
    create_filter (fun _ => 0) (fun _ => 0) [2] 1 0 = Except.ok [0, 1]
    ∧ create_filter (fun _ => 0) (fun _ => 0) [2] 0 0 = Except.ok [0, 0]
    ∧ ([0, 1] : List ℚ) ≠ List.replicate 2 (1 : ℚ) := by
  have hmesh : create_filter_mesh (fun _ => 0) [2] = Except.ok [0, 1] := by
    norm_num [create_filter_mesh, axis_gradient, linspace,
      show ([2] : List ℕ).reverse.enum = [(0, 2)] from rfl,
      show List.range 2 = [0, 1] from rfl]
  refine ⟨?_, ?_, by simp⟩
  · unfold create_filter
    rw [if_neg (by norm_num), hmesh]
    norm_num [normTilt, EPSILON]
  · unfold create_filter
    rw [if_neg (by norm_num), hmesh]
    norm_num [normTilt, EPSILON]

theorem normTilt_nonneg (tilt : ℚ) : 0 ≤ normTilt tilt := by
  unfold normTilt
  have h := Int.floor_le (tilt / 4)
  have h4 : (⌊tilt / 4⌋ : ℚ) * 4 ≤ tilt := by linarith
  linarith

theorem normTilt_lt_four (tilt : ℚ) : normTilt tilt < 4 := by
  unfold normTilt
  have h := Int.lt_floor_add_one (tilt / 4)
  have h4 : tilt < (⌊tilt / 4⌋ : ℚ) * 4 + 4 := by linarith
  linarith

theorem create_filter_mesh_ok (sqrtF : ℚ → ℚ) (shape : List ℕ) (h : shape ≠ []) :
    ∃ mesh, create_filter_mesh sqrtF shape = Except.ok mesh := by
  simp only [create_filter_mesh]
  split_ifs with h1
  · exact ⟨_, rfl⟩
  · cases hgl : (shape.reverse.enum.map (fun p => axis_gradient p.1 p.2)).reverse with
    | nil =>
      exfalso
      have hlen := congrArg List.length hgl
      simp only [List.length_reverse, List.length_map, List.enum_length,
        List.length_nil] at hlen
      exact h (List.eq_nil_of_length_eq_zero hlen)
    | cons g rest => exact ⟨g, rfl⟩

theorem create_filter_mesh_error_eq (sqrtF : ℚ → ℚ) (shape : List ℕ) (e : String)
    (h : create_filter_mesh sqrtF shape = Except.error e) :
    e = "IndexError: list index out of range" := by
  simp only [create_filter_mesh] at h
  split_ifs at h
  cases hgl : (shape.reverse.enum.map (fun p => axis_gradient p.1 p.2)).reverse with
  | nil =>
    rw [hgl] at h
    exact (Except.error.inj h).symm
  | cons g rest =>
    rw [hgl] at h
    exact Except.noConfusion h

/-- Counterexample for claim C8 as stated: at the empty shape `()` the mesh
construction `mesh = gradients[0]` raises an `IndexError` even though
`alpha = 1/2` is in range, so "returns a filter for every shape without
raising" fails (the raise is not the alpha validation error). -/
theorem create_filter_empty_shape_counterexample :
    create_filter (fun _ => 0) (fun _ => 0) [] (1 / 2) 0
        = Except.error "IndexError: list index out of range"
    ∧ ((0 : ℚ) ≤ 1 / 2 ∧ (1 / 2 : ℚ) ≤ 1)
    ∧ exceptIsOk (create_filter (fun _ => 0) (fun _ => 0) [] (1 / 2) 0) = false := by
  have h1 : create_filter (fun _ => 0) (fun _ => 0) [] (1 / 2) 0
      = Except.error "IndexError: list index out of range" := by
    unfold create_filter
    rw [if_neg (by norm_num)]
    rfl
  exact ⟨h1, ⟨by norm_num, by norm_num⟩, by rw [h1]; rfl⟩

/-- Claim C8 (amended): `create_filter` raises the alpha validation error
exactly when `alpha ∉ [0, 1]`; for every in-range `alpha`, every nonempty
shape and every tilt it returns a filter without raising (the degenerate
empty shape instead raises an `IndexError` in the mesh construction); and
the cotangent branch is reached only for normalized tilts that are not even
integers — i.e. only where `tan(π·t/2) ≠ 0`, so the cotangent never divides
by zero. -/
theorem create_filter_raises_iff (tanPiHalf sqrtF : ℚ → ℚ) (shape : List ℕ)
    (alpha tilt : ℚ) :
    (create_filter tanPiHalf sqrtF shape alpha tilt
        = Except.error "alpha must be between 0 and 1"
      ↔ ¬(0 ≤ alpha ∧ alpha ≤ 1))
    ∧ (shape ≠ [] →
      (exceptIsOk (create_filter tanPiHalf sqrtF shape alpha tilt) = true ↔
        (0 ≤ alpha ∧ alpha ≤ 1)))
    ∧ (cot_branch (normTilt tilt) → ¬∃ n : ℤ, normTilt tilt = 2 * n) := by
  refine ⟨?_, fun hne => ?_, ?_⟩
  · unfold create_filter
    split_ifs with h
    · apply iff_of_false _ (not_not.mpr h)
      cases hm : create_filter_mesh sqrtF shape with
      | error e =>
        intro hq
        have h2 := Except.error.inj hq
        have h3 := create_filter_mesh_error_eq sqrtF shape e hm
        rw [h3] at h2
        exact absurd h2 (by decide)
      | ok mesh =>
        intro hq
        exact Except.noConfusion hq
    · exact iff_of_true rfl h
  · unfold create_filter
    split_ifs with h
    · obtain ⟨mesh, hm⟩ := create_filter_mesh_ok sqrtF shape hne
      rw [hm]
      exact iff_of_true rfl h
    · exact iff_of_false (by simp [exceptIsOk]) h
  · rintro ⟨hc1, hc2⟩ ⟨n, hn⟩
    have h0 := normTilt_nonneg tilt
    have h4 := normTilt_lt_four tilt
    push_neg at hc1
    obtain ⟨hc1a, _⟩ := hc1
    have hn0 : (0 : ℚ) ≤ 2 * (n : ℚ) := by rw [← hn]; exact h0
    have hn4 : 2 * (n : ℚ) < 4 := by rw [← hn]; exact h4
    have hnlo : 0 ≤ n := by exact_mod_cast (by linarith : (0 : ℚ) ≤ (n : ℚ))
    have hnhi : n < 2 := by exact_mod_cast (by linarith : ((n : ℚ)) < 2)
    interval_cases n
    · rw [show (2 : ℚ) * ((0 : ℤ) : ℚ) = 0 by norm_num] at hn
      rw [hn] at hc1a
      unfold EPSILON at hc1a
      norm_num at hc1a
    · rw [show (2 : ℚ) * ((1 : ℤ) : ℚ) = 2 by norm_num] at hn
      rw [hn] at hc2
      unfold EPSILON at hc2
      norm_num at hc2

/-- Witness for C8 at the nonempty shape `(2,)` and `tilt = 1/2` (a genuine
cotangent-branch tilt). -/
theorem create_filter_raises_iff_witness :
    (exceptIsOk (create_filter (fun _ => 0) (fun _ => 0) [2] (1 / 2) (1 / 2)) = true
      ↔ ((0 : ℚ) ≤ 1 / 2 ∧ (1 / 2 : ℚ) ≤ 1))
    ∧ ¬∃ n : ℤ, normTilt (1 / 2) = 2 * n := by
  constructor
  · exact (create_filter_raises_iff (fun _ => 0) (fun _ => 0) [2] (1 / 2)
      (1 / 2)).2.1 (by simp)
  · apply (create_filter_raises_iff (fun _ => 0) (fun _ => 0) [2] (1 / 2)
      (1 / 2)).2.2
    unfold cot_branch normTilt EPSILON
    norm_num
    constructor <;> (rw [abs_of_pos (by norm_num)]; norm_num)

/-! ### geometric median (C4) -/

theorem zipWith_replicate_one (models : List (List ℚ)) :
    List.zipWith (fun (p : List ℚ) (w : ℚ) => p.map (fun x => w * x)) models
      (List.replicate models.length 1) = models := by
  induction models with
  | nil => rfl
  | cons m ms ih =>
    simp only [List.length_cons, List.replicate_succ, List.zipWith_cons_cons, ih]
    congr 1
    have : m.map (fun x => (1 : ℚ) * x) = m.map id :=
      List.map_congr_left (fun x _ => one_mul x)
    rw [this, List.map_id]

theorem weighted_average_ones (models : List (List ℚ)) :
    weighted_average models (List.replicate models.length 1) = uniform_mean models := by
  unfold weighted_average uniform_mean
  rw [zipWith_replicate_one]
  have hsum : (List.replicate models.length (1 : ℚ)).sum = (models.length : ℚ) := by
    rw [List.sum_replicate, nsmul_eq_mul, mul_one]
  rw [hsum]

theorem weighted_average_singleton (p : List ℚ) (w : ℚ) (hw : w ≠ 0) :
    weighted_average [p] [w] = p := by
  unfold weighted_average vecSum
  simp only [List.zipWith_cons_cons, List.zipWith_nil_right, List.foldl_nil,
    List.sum_cons, List.sum_nil, add_zero, List.map_map]
  have : p.map ((fun x => x / w) ∘ fun x => w * x) = p.map id :=
    List.map_congr_left (fun x _ => by
      simp only [Function.comp_apply, id_eq]
      exact mul_div_cancel_left₀ x hw)
  rw [this, List.map_id]

theorem gmLoop_count_le (l2d : List ℚ → List ℚ → ℚ) (models : List (List ℚ))
    (weights : List ℚ) (eps ftol : ℚ) :
    ∀ (fuel : ℕ) (median nw : List ℚ) (obj : ℚ),
      (gmLoop l2d models weights eps ftol fuel median nw obj).2 ≤ fuel := by
  intro fuel
  induction fuel with
  | zero => intro median nw obj; simp [gmLoop]
  | succ f ih =>
    intro median nw obj
    simp only [gmLoop]
    split_ifs
    · norm_num
    · have h := ih (weighted_average models
        (List.zipWith (fun w d => w / max d eps) weights
          (models.map (fun p => l2d p median))))
        (List.zipWith (fun w d => w / max d eps) weights
          (models.map (fun p => l2d p median)))
        (geometric_median_objective l2d
          (weighted_average models
            (List.zipWith (fun w d => w / max d eps) weights
              (models.map (fun p => l2d p median)))) models weights)
      omega

theorem gmLoop_single (l2d : List ℚ → List ℚ → ℚ) (p : List ℚ) (eps ftol : ℚ)
    (hd : l2d p p = 0) (heps : 0 < eps) (fuel : ℕ) :
    weighted_average [p] (gmLoop l2d [p] [1] eps ftol fuel p [1] 0).1 = p := by
  cases fuel with
  | zero =>
    simp only [gmLoop]
    exact weighted_average_singleton p 1 one_ne_zero
  | succ f =>
    have hmax : max (0 : ℚ) eps = eps := max_eq_right (le_of_lt heps)
    have hinv : (1 : ℚ) / eps ≠ 0 := one_div_ne_zero (ne_of_gt heps)
    have hwa : weighted_average [p] [1 / eps] = p :=
      weighted_average_singleton p _ hinv
    have hobj : geometric_median_objective l2d p [p] [1] = 0 := by
      unfold geometric_median_objective
      simp [hd]
    simp only [gmLoop, List.map_cons, List.map_nil, hd, List.zipWith_cons_cons,
      List.zipWith_nil_right, hmax, hwa, hobj]
    norm_num
    rw [← one_div]
    exact hwa

/-- Claim C4: the geometric-median solver returns the ordinary uniform-weight
mean when `maxiter = 0`; returns the single input unchanged when `n = 1`
(given `eps > 0`, for every `maxiter`); and always terminates after at most
`max(0, round(maxiter))` Weiszfeld iterations, returning the final weighted
average without error. -/
theorem geometric_median_props (l2d : List ℚ → List ℚ → ℚ)
    (models : List (List ℚ)) (p : List ℚ) (eps maxiter ftol : ℚ) :
    (maxiter = 0 →
      geometric_median_list_of_array l2d models eps maxiter ftol
        = uniform_mean models)
    ∧ (l2d p p = 0 → 0 < eps →
      geometric_median_list_of_array l2d [p] eps maxiter ftol = p)
    ∧ (gm_run l2d models eps maxiter ftol).2 ≤ (max 0 (pyRound maxiter)).toNat
    ∧ geometric_median_list_of_array l2d models eps maxiter ftol
        = weighted_average models (gm_run l2d models eps maxiter ftol).1 := by
  refine ⟨?_, ?_, ?_, rfl⟩
  · intro h0
    subst h0
    unfold geometric_median_list_of_array gm_run
    have hr : pyRound (0 : ℚ) = 0 := by
      simpa using pyRound_intCast 0
    simp only [hr]
    norm_num [gmLoop]
    exact weighted_average_ones models
  · intro hd heps
    unfold geometric_median_list_of_array gm_run
    have h1 : List.replicate ([p] : List (List ℚ)).length (1 : ℚ) = [1] := rfl
    have hwa1 : weighted_average [p] [1] = p := weighted_average_singleton p 1 one_ne_zero
    have hobj : geometric_median_objective l2d p [p] [1] = 0 := by
      unfold geometric_median_objective
      simp [hd]
    simp only [h1, hwa1, hobj]
    exact gmLoop_single l2d p eps ftol hd heps _
  · exact gmLoop_count_le l2d models _ eps ftol _ _ _ _

/-- Witness for C4 at `models = [[1], [3]]`, `p = [2]`, `eps = 1`,
`maxiter = 0`, `ftol = 0`, with the trivially-zero distance function. -/
theorem geometric_median_props_witness :
    geometric_median_list_of_array (fun _ _ => 0) [[(1 : ℚ)], [3]] 1 0 0
        = uniform_mean [[(1 : ℚ)], [3]]
    ∧ geometric_median_list_of_array (fun _ _ => 0) [[(2 : ℚ)]] 1 0 0 = [2] := by
  constructor
  · exact (geometric_median_props (fun _ _ => 0) [[(1 : ℚ)], [3]] [2] 1 0 0).1 rfl
  · exact (geometric_median_props (fun _ _ => 0) [[(2 : ℚ)]] [2] 1 0 0).2.1 rfl
      (by norm_num)

/-! ### dropout (C7) -/

theorem invCDF_head_lt (u q : ℚ) (rest : List ℚ) (h : u < q) :
    invCDF u (q :: rest) = 0 := by
  unfold invCDF
  rw [if_pos h]

theorem overlapping_sets_pmf_cons (tanPi expF : ℚ → ℚ) (n : ℕ)
    (p overlap emph : ℚ) :
    ∃ tail, overlapping_sets_pmf tanPi expF n p overlap emph = p :: tail :=
  ⟨_, rfl⟩

theorem dropout_masks_empty (tanPi expF : ℚ → ℚ) (u : ℕ → ℚ) (n L : ℕ)
    (overlap emph : ℚ) (hu : ∀ m, 0 ≤ u m ∧ u m < 1) :
    ∀ row ∈ dropout_masks tanPi expF u n L 1 overlap emph, ∀ x ∈ row, x = false := by
  intro row hrow x hx
  unfold dropout_masks at hrow
  split_ifs at hrow
  · obtain ⟨i, _, hi⟩ := List.mem_map.mp hrow
    rw [← hi] at hx
    obtain ⟨j, _, hj⟩ := List.mem_map.mp hx
    rw [← hj]
    apply decide_eq_false
    intro hlt
    have h0 := (hu (i * L + j)).1
    have h11 : (1 : ℚ) - 1 = 0 := by norm_num
    rw [h11] at hlt
    linarith
  · obtain ⟨i, _, hi⟩ := List.mem_map.mp hrow
    rw [← hi] at hx
    obtain ⟨j, _, hj⟩ := List.mem_map.mp hx
    rw [← hj]
    obtain ⟨tail, htail⟩ := overlapping_sets_pmf_cons tanPi expF n 1 overlap emph
    rw [htail, invCDF_head_lt _ _ _ (hu j).2]
    exact Nat.zero_testBit i

theorem dropout_masks_length (tanPi expF : ℚ → ℚ) (u : ℕ → ℚ) (n L : ℕ)
    (p overlap emph : ℚ) :
    (dropout_masks tanPi expF u n L p overlap emph).length = n := by
  unfold dropout_masks
  split_ifs <;> simp

theorem dropout_masks_getD_false (tanPi expF : ℚ → ℚ) (u : ℕ → ℚ) (n L : ℕ)
    (overlap emph : ℚ) (hu : ∀ m, 0 ≤ u m ∧ u m < 1) (i j : ℕ) :
    ((dropout_masks tanPi expF u n L 1 overlap emph).getD i []).getD j false
      = false := by
  by_cases hi : i < n
  · have hilen : i < (dropout_masks tanPi expF u n L 1 overlap emph).length := by
      rw [dropout_masks_length]; exact hi
    have hmem : (dropout_masks tanPi expF u n L 1 overlap emph).getD i []
        ∈ dropout_masks tanPi expF u n L 1 overlap emph := by
      rw [List.getD_eq_getElem _ _ hilen]
      exact List.getElem_mem _
    by_cases hj :
        j < ((dropout_masks tanPi expF u n L 1 overlap emph).getD i []).length
    · have hx : ((dropout_masks tanPi expF u n L 1 overlap emph).getD i []).getD
          j false ∈ (dropout_masks tanPi expF u n L 1 overlap emph).getD i [] := by
        rw [List.getD_eq_getElem _ _ hj]
        exact List.getElem_mem _
      exact dropout_masks_empty tanPi expF u n L overlap emph hu _ hmem _ hx
    · exact List.getD_eq_default _ _ (by omega)
  · have houter : (dropout_masks tanPi expF u n L 1 overlap emph).getD i [] = [] :=
      List.getD_eq_default _ _ (by rw [dropout_masks_length]; omega)
    rw [houter]
    simp

/-- Claim C7: `dropout` with `probability = 1.0` returns the all-zero tensor
for every `overlap`, `rescale`, `overlap_emphasis` and seed (uniform stream):
every inclusion mask is empty, the per-element divisor is floored at `1`, the
rescale divisor is forced to `1` instead of `(1 - probability) ^ rescale`, and
no division by zero reaches the output. -/
theorem dropout_probability_one (upow : ℚ → ℚ → ℚ) (tanPi expF : ℚ → ℚ)
    (u : ℕ → ℚ) (seed : ℚ) (delta0 : List ℚ) (deltas0 : List (List ℚ))
    (rescale overlap overlap_emphasis : ℚ)
    (hu : ∀ m, 0 ≤ u m ∧ u m < 1) :
    (∀ row ∈ dropout_masks tanPi expF u (delta0 :: deltas0).length delta0.length
        1 overlap overlap_emphasis, ∀ x ∈ row, x = false)
    ∧ dropout upow tanPi expF u seed delta0 deltas0 1 rescale overlap
        overlap_emphasis = List.replicate delta0.length 0 := by
  refine ⟨dropout_masks_empty _ _ _ _ _ _ _ hu, ?_⟩
  unfold dropout
  simp only [dropout_masks_getD_false tanPi expF u (delta0 :: deltas0).length
    delta0.length overlap overlap_emphasis hu, Bool.false_eq_true, if_false,
    if_pos rfl]
  rw [List.eq_replicate_iff]
  constructor
  · simp
  · intro b hb
    obtain ⟨j, _, hj⟩ := List.mem_map.mp hb
    rw [← hj]
    have hz : ((List.range (delta0 :: deltas0).length).map
        (fun _ => (0 : ℚ))).sum = 0 := by
      apply List.sum_eq_zero
      intro x hx
      obtain ⟨_, _, hx2⟩ := List.mem_map.mp hx
      exact hx2.symm
    rw [hz]
    norm_num

/-- Witness for C7 at `delta0 = [3, -2]`, one extra delta `[1, 1]`,
`overlap = 0` (joint-subset branch), zero uniform stream. -/
theorem dropout_probability_one_witness :
    dropout (fun _ _ => 0) (fun _ => 0) (fun _ => 0) (fun _ => 0) 0
        [(3 : ℚ), -2] [[1, 1]] 1 1 0 0 = List.replicate 2 0 := by
  have h := dropout_probability_one (fun _ _ => 0) (fun _ => 0) (fun _ => 0)
    (fun _ => 0) 0 [(3 : ℚ), -2] [[1, 1]] 1 0 0
    (fun m => ⟨le_refl 0, by norm_num⟩)
  exact h.2

/-! ### slerp (C6) -/

theorem addFV_nan_right (x : FV) : addFV x FV.nan = FV.nan := by
  cases x <;> rfl

theorem mulFV_nan_right (x : FV) : mulFV x FV.nan = FV.nan := by
  cases x <;> rfl

theorem addFV_nan_left (x : FV) : addFV FV.nan x = FV.nan := by
  cases x <;> rfl

theorem mulFV_nan_left (x : FV) : mulFV FV.nan x = FV.nan := by
  cases x <;> rfl

theorem divFV_nan_left (x : FV) : divFV FV.nan x = FV.nan := by
  cases x <;> rfl

theorem clampFV_nan (lo hi : ℝ) : clampFV lo hi FV.nan = FV.nan := rfl

theorem arccosFV_nan : arccosFV FV.nan = FV.nan := rfl

theorem sinFV_nan : sinFV FV.nan = FV.nan := rfl

theorem divFV_fin_fin (x y : ℝ) :
    divFV (.fin x) (.fin y) =
      if y = 0 then
        (if x = 0 then FV.nan else if 0 < x then FV.inf true else FV.inf false)
      else FV.fin (x / y) := rfl

theorem divFV_fin_zero_zero : divFV (.fin (0 : ℝ)) (.fin 0) = FV.nan := by
  rw [divFV_fin_fin, if_pos rfl, if_pos rfl]

theorem arccosFV_fin (x : ℝ) :
    arccosFV (.fin x) =
      if -1 ≤ x ∧ x ≤ 1 then FV.fin (Real.arccos x) else FV.nan := rfl

theorem sumSq_nonneg (l : List ℝ) : 0 ≤ sumSq l := by
  unfold sumSq
  apply List.sum_nonneg
  intro x hx
  obtain ⟨y, _, hy⟩ := List.mem_map.mp hx
  rw [← hy]
  positivity

theorem mem_of_sumSq_zero (l : List ℝ) (h : sumSq l = 0) : ∀ x ∈ l, x = 0 := by
  intro x hx
  have h2 : x ^ 2 = 0 := by
    refine sum_nonneg_all_zero (l.map (fun y => y ^ 2)) (fun y hy => ?_) h _
      (List.mem_map_of_mem _ hx)
    obtain ⟨z, _, hz⟩ := List.mem_map.mp hy
    rw [← hz]; positivity
  exact pow_eq_zero_iff (by norm_num) |>.mp h2

theorem norm2_zero_entry (a : List ℝ) (h : norm2 a = 0) : ∀ x ∈ a, x = 0 := by
  apply mem_of_sumSq_zero
  have h0 := sumSq_nonneg a
  have h2 := Real.sqrt_eq_zero'.mp h
  linarith

theorem sumSq_ne_zero (a : List ℝ) (h : norm2 a ≠ 0) : sumSq a ≠ 0 := by
  intro h0
  apply h
  unfold norm2
  rw [h0, Real.sqrt_zero]

theorem norm2_ne_zero_normalize (a : List ℝ) (h : norm2 a ≠ 0) :
    normalizeFV a = a.map (fun x => FV.fin (x / norm2 a)) := by
  unfold normalizeFV
  apply List.map_congr_left
  intro x _
  simp only [divFV, if_neg h]

theorem dotFV_map_fin (u : List ℝ) :
    ∀ v : List ℝ, dotFV (u.map FV.fin) (v.map FV.fin)
      = FV.fin ((List.zipWith (· * ·) u v).sum) := by
  induction u with
  | nil => intro v; simp [dotFV]
  | cons x xs ih =>
    intro v
    cases v with
    | nil => simp [dotFV]
    | cons y ys =>
      unfold dotFV at ih ⊢
      simp only [List.map_cons, List.zipWith_cons_cons, List.foldr_cons,
        List.sum_cons]
      rw [ih ys]
      rfl

theorem sumSq_map_div (l : List ℝ) (c : ℝ) :
    sumSq (l.map (fun x => x / c)) = sumSq l / c ^ 2 := by
  induction l with
  | nil => simp [sumSq]
  | cons x xs ih =>
    simp only [sumSq, List.map_cons, List.sum_cons] at ih ⊢
    rw [ih, div_pow, add_div]

theorem sumSq_normalized_one (a : List ℝ) (h : norm2 a ≠ 0) :
    sumSq (a.map (fun x => x / norm2 a)) = 1 := by
  rw [sumSq_map_div]
  have hsq : norm2 a ^ 2 = sumSq a := Real.sq_sqrt (sumSq_nonneg a)
  rw [hsq]
  exact div_self (sumSq_ne_zero a h)

theorem sumSq_zipWith_add (u : List ℝ) :
    ∀ v : List ℝ, u.length = v.length →
      sumSq (List.zipWith (· + ·) u v)
        = sumSq u + 2 * (List.zipWith (· * ·) u v).sum + sumSq v := by
  induction u with
  | nil =>
    intro v hv
    cases v with
    | nil => simp [sumSq]
    | cons y ys => simp at hv
  | cons x xs ih =>
    intro v hv
    cases v with
    | nil => simp at hv
    | cons y ys =>
      simp only [List.zipWith_cons_cons, sumSq, List.map_cons, List.sum_cons] at ih ⊢
      rw [ih ys (by simpa using hv)]
      ring

theorem dot_le_neg_one_pointwise (u v : List ℝ) (hlen : u.length = v.length)
    (hu : sumSq u = 1) (hv : sumSq v = 1)
    (hd : (List.zipWith (· * ·) u v).sum ≤ -1) :
    ∀ i (hi : i < u.length) (hi2 : i < v.length), u[i] + v[i] = 0 := by
  have hz := sumSq_zipWith_add u v hlen
  have hzn := sumSq_nonneg (List.zipWith (· + ·) u v)
  have hdeq : (List.zipWith (· * ·) u v).sum = -1 := by linarith
  have hzero : sumSq (List.zipWith (· + ·) u v) = 0 := by
    rw [hz, hu, hv, hdeq]; ring
  intro i hi hi2
  have hiz : i < (List.zipWith (· + ·) u v).length := by
    rw [List.length_zipWith]; omega
  have hmem : u[i] + v[i] ∈ List.zipWith (· + ·) u v := by
    have hgz : (List.zipWith (· + ·) u v)[i] = u[i] + v[i] := List.getElem_zipWith
    rw [← hgz]
    exact List.getElem_mem _
  exact mem_of_sumSq_zero _ hzero _ hmem

theorem slerpRes_length (a b : List ℝ) (alpha : ℝ) :
    (slerpRes a b alpha).length = min a.length b.length := by
  simp [slerpRes, normalizeFV]

theorem slerpRes_getElem (a b : List ℝ) (alpha : ℝ) (i : ℕ)
    (hi : i < (slerpRes a b alpha).length)
    (hia : i < a.length) (hib : i < b.length) :
    (slerpRes a b alpha)[i] =
      mulFV (divFV (addFV
        (mulFV (divFV (.fin a[i]) (.fin (norm2 a)))
          (sinFV (mulFV (.fin (1 - alpha)) (arccosFV (omega_arg a b)))))
        (mulFV (divFV (.fin b[i]) (.fin (norm2 b)))
          (sinFV (mulFV (.fin alpha) (arccosFV (omega_arg a b))))))
        (sinFV (arccosFV (omega_arg a b))))
      (.fin ((1 - alpha) * norm2 a + alpha * norm2 b)) := by
  simp only [slerpRes, normalizeFV, List.getElem_map, List.getElem_zipWith]

theorem omega_arg_cases (a b : List ℝ) :
    omega_arg a b = FV.nan ∨ ∃ c, omega_arg a b = FV.fin c ∧ -1 ≤ c ∧ c ≤ 1 := by
  unfold omega_arg
  cases h : dotFV (normalizeFV a) (normalizeFV b) with
  | fin d =>
    right
    exact ⟨max (-1) (min 1 d), rfl, le_max_left _ _,
      max_le (by norm_num) (min_le_left _ _)⟩
  | inf s =>
    right
    cases s
    · exact ⟨-1, rfl, le_refl _, by norm_num⟩
    · exact ⟨1, rfl, by norm_num, le_refl _⟩
  | nan => left; rfl

theorem mulFV_fin_fin (x y : ℝ) : mulFV (.fin x) (.fin y) = .fin (x * y) := rfl

theorem addFV_fin_fin (x y : ℝ) : addFV (.fin x) (.fin y) = .fin (x + y) := rfl

theorem sinFV_fin (x : ℝ) : sinFV (.fin x) = .fin (Real.sin x) := rfl

theorem divFV_fin_fin_ne (x y : ℝ) (h : y ≠ 0) :
    divFV (.fin x) (.fin y) = .fin (x / y) := by
  rw [divFV_fin_fin, if_neg h]

/-- Claim C6: `slerp` clamps the dot product of the normalized inputs to
`[-1, 1]` before taking `arccos`, and whenever the geodesic-interpolation
result contains any non-finite value, `slerp` returns
`weighted_sum(a, b, alpha)` instead: in exact arithmetic every non-finite
entry of the candidate result is in fact a NaN (an infinity cannot escape,
since the `sin(ω) = 0` degeneracies force the numerator to `0` as well), and
the `isnan` check catches it. -/
theorem slerp_props (a b : List ℝ) (alpha : ℝ) (hlen : a.length = b.length) :
    (omega_arg a b = FV.nan ∨ ∃ c, omega_arg a b = FV.fin c ∧ -1 ≤ c ∧ c ≤ 1)
    ∧ ((∃ v ∈ slerpRes a b alpha, isFinFV v = false) →
        slerp a b alpha = (weighted_sum a b alpha).map FV.fin) := by
  refine ⟨omega_arg_cases a b, fun hex => ?_⟩
  by_cases hany : (slerpRes a b alpha).any isNanFV
  · unfold slerp
    rw [if_pos hany]
  · exfalso
    obtain ⟨v, hv, hvfin⟩ := hex
    have hvNotNan : isNanFV v = false := by
      by_contra hq
      exact hany (List.any_eq_true.mpr ⟨v, hv, by
        revert hq; cases isNanFV v <;> simp⟩)
    obtain ⟨i, hilen, hvi⟩ := List.mem_iff_getElem.mp hv
    have hil2 := hilen
    rw [slerpRes_length] at hil2
    have hia : i < a.length := by omega
    have hib : i < b.length := by omega
    have hform : v = mulFV (divFV (addFV
        (mulFV (divFV (.fin a[i]) (.fin (norm2 a)))
          (sinFV (mulFV (.fin (1 - alpha)) (arccosFV (omega_arg a b)))))
        (mulFV (divFV (.fin b[i]) (.fin (norm2 b)))
          (sinFV (mulFV (.fin alpha) (arccosFV (omega_arg a b))))))
        (sinFV (arccosFV (omega_arg a b))))
      (.fin ((1 - alpha) * norm2 a + alpha * norm2 b)) := by
      rw [← hvi]
      exact slerpRes_getElem a b alpha i hilen hia hib
    by_cases hna : norm2 a = 0
    · have ha0 : a[i] = 0 := norm2_zero_entry a hna _ (List.getElem_mem _)
      have hvnan : v = FV.nan := by
        rw [hform, ha0, hna, divFV_fin_zero_zero, mulFV_nan_left, addFV_nan_left,
          divFV_nan_left, mulFV_nan_left]
      rw [hvnan] at hvNotNan
      simp [isNanFV] at hvNotNan
    by_cases hnb : norm2 b = 0
    · have hb0 : b[i] = 0 := norm2_zero_entry b hnb _ (List.getElem_mem _)
      have hvnan : v = FV.nan := by
        rw [hform, hb0, hnb, divFV_fin_zero_zero, mulFV_nan_left, addFV_nan_right,
          divFV_nan_left, mulFV_nan_left]
      rw [hvnan] at hvNotNan
      simp [isNanFV] at hvNotNan
    have hu1 : sumSq (a.map (fun x => x / norm2 a)) = 1 := sumSq_normalized_one a hna
    have hw1 : sumSq (b.map (fun x => x / norm2 b)) = 1 := sumSq_normalized_one b hnb
    have hma : a.map (fun x => FV.fin (x / norm2 a))
        = (a.map (fun x => x / norm2 a)).map FV.fin := by
      rw [List.map_map]; rfl
    have hmb : b.map (fun x => FV.fin (x / norm2 b))
        = (b.map (fun x => x / norm2 b)).map FV.fin := by
      rw [List.map_map]; rfl
    have hdot : dotFV (normalizeFV a) (normalizeFV b)
        = FV.fin ((List.zipWith (· * ·) (a.map (fun x => x / norm2 a))
            (b.map (fun x => x / norm2 b))).sum) := by
      rw [norm2_ne_zero_normalize a hna, norm2_ne_zero_normalize b hnb, hma, hmb,
        dotFV_map_fin]
    set d := (List.zipWith (· * ·) (a.map (fun x => x / norm2 a))
      (b.map (fun x => x / norm2 b))).sum with hd
    have homega : omega_arg a b = FV.fin (max (-1) (min 1 d)) := by
      unfold omega_arg
      rw [hdot]
      rfl
    set c := max (-1) (min 1 d) with hc
    have hc1 : -1 ≤ c := le_max_left _ _
    have hc2 : c ≤ 1 := max_le (by norm_num) (min_le_left _ _)
    have harccos : arccosFV (omega_arg a b) = FV.fin (Real.arccos c) := by
      rw [homega, arccosFV_fin, if_pos ⟨hc1, hc2⟩]
    have hform2 : v = mulFV (divFV
        (.fin (a[i] / norm2 a * Real.sin ((1 - alpha) * Real.arccos c) +
          b[i] / norm2 b * Real.sin (alpha * Real.arccos c)))
        (.fin (Real.sin (Real.arccos c))))
        (.fin ((1 - alpha) * norm2 a + alpha * norm2 b)) := by
      rw [hform, harccos]
      simp only [mulFV_fin_fin, sinFV_fin, divFV_fin_fin_ne _ _ hna,
        divFV_fin_fin_ne _ _ hnb, addFV_fin_fin]
    by_cases hs : Real.sin (Real.arccos c) = 0
    · have hsq0 : Real.sqrt (1 - c ^ 2) = 0 := by
        rw [← Real.sin_arccos]; exact hs
      have hle : 1 - c ^ 2 ≤ 0 := Real.sqrt_eq_zero'.mp hsq0
      have h1c : 1 - c ^ 2 = 0 := le_antisymm hle (by nlinarith [hc1, hc2])
      have hcsq : (c - 1) * (c + 1) = 0 := by nlinarith [h1c]
      have hcc : c = 1 ∨ c = -1 := by
        rcases mul_eq_zero.mp hcsq with h | h
        · left; linarith
        · right; linarith
      have hvnan : v = FV.nan := by
        rw [hform2]
        rcases hcc with h1 | h1
        · have harc : Real.arccos c = 0 := by rw [h1]; exact Real.arccos_one
          rw [harc]
          simp only [mul_zero, Real.sin_zero, add_zero]
          rw [divFV_fin_zero_zero, mulFV_nan_left]
        · have harc : Real.arccos c = Real.pi := by
            rw [h1]; exact Real.arccos_neg_one
          have hmle : min 1 d ≤ -1 := by
            apply max_eq_left_iff.mp
            rw [← hc]; exact h1
          have hdle : d ≤ -1 := by
            rcases min_le_iff.mp hmle with h2 | h2
            · linarith
            · exact h2
          have hmia : i < (a.map (fun x => x / norm2 a)).length := by
            simpa using hia
          have hmib : i < (b.map (fun x => x / norm2 b)).length := by
            simpa using hib
          have hpt := dot_le_neg_one_pointwise (a.map (fun x => x / norm2 a))
            (b.map (fun x => x / norm2 b)) (by simp [hlen]) hu1 hw1
            (by rw [← hd]; exact hdle) i hmia hmib
          have hui : (a.map (fun x => x / norm2 a))[i]
              = a[i] / norm2 a := List.getElem_map _
          have hwi : (b.map (fun x => x / norm2 b))[i]
              = b[i] / norm2 b := List.getElem_map _
          rw [hui, hwi] at hpt
          have hsin : Real.sin ((1 - alpha) * Real.pi)
              = Real.sin (alpha * Real.pi) := by
            rw [show (1 - alpha) * Real.pi = Real.pi - alpha * Real.pi by ring,
              Real.sin_pi_sub]
          have hnum : a[i] / norm2 a * Real.sin (alpha * Real.pi) +
              b[i] / norm2 b * Real.sin (alpha * Real.pi) = 0 := by
            rw [← add_mul, hpt, zero_mul]
          rw [harc, hsin, hnum, Real.sin_pi]
          rw [divFV_fin_zero_zero, mulFV_nan_left]
      rw [hvnan] at hvNotNan
      simp [isNanFV] at hvNotNan
    · have hfin : isFinFV v = true := by
        rw [hform2, divFV_fin_fin_ne _ _ hs, mulFV_fin_fin]
        rfl
      rw [hfin] at hvfin
      simp at hvfin

/-- Witness for C6 at `a = b = [0]`, `alpha = 0`: the zero norm produces NaN
entries and the fallback fires. -/
theorem slerp_props_witness :
    (∃ v ∈ slerpRes [(0 : ℝ)] [0] 0, isFinFV v = false)
    ∧ slerp [(0 : ℝ)] [0] 0 = (weighted_sum [(0 : ℝ)] [0] 0).map FV.fin := by
  have hres : slerpRes [(0 : ℝ)] [0] 0 = [FV.nan] := by
    have hn : norm2 [(0 : ℝ)] = 0 := by
      unfold norm2 sumSq
      norm_num
    have hnorm : normalizeFV [(0 : ℝ)] = [FV.nan] := by
      unfold normalizeFV
      simp only [List.map_cons, List.map_nil, hn, divFV_fin_zero_zero]
    unfold slerpRes omega_arg
    rw [hnorm]
    simp only [dotFV, List.zipWith_cons_cons, List.zipWith_nil_right,
      mulFV_nan_left, List.foldr_cons, List.foldr_nil, addFV_nan_left,
      clampFV_nan, arccosFV_nan, sinFV_nan, mulFV_nan_right, List.map_cons,
      List.map_nil, divFV_nan_left]
  have hex : ∃ v ∈ slerpRes [(0 : ℝ)] [0] 0, isFinFV v = false := by
    rw [hres]
    exact ⟨FV.nan, by simp, rfl⟩
  exact ⟨hex, (slerp_props [(0 : ℝ)] [0] 0 rfl).2 hex⟩

end SdMecha
